import Mathlib

set_option maxHeartbeats 1000000

/-!
# A shallow embedding of the `turing-machine-vm` interpreter (`src/main.rs`)

The embedding translates the Rust source into Lean:

* `strTrim` models `str::trim`, `splitWS` models `str::split_whitespace`
  (the program images in scope are ASCII, so `Char.isWhitespace` is the
  whitespace test);
* `parseI64` models `str::parse::<i64>()` (optional sign, one or more ASCII
  digits, whole string, with the `i64` range check);
* `Instruction` and `Instruction.parse` model `enum Instruction` and
  `Instruction::parse`;
* `VM`, `VM.checkBounds`, `VM.getAddress` and `VM.executeInstruction` model
  `struct VM` and its methods; a Rust `panic!` becomes an `Except.error`
  carrying the `VMError` and the machine state at the moment of the panic;
* `i64` arithmetic on cell values (`current_val + 1`, `test_val - 1`) is
  modelled with two's-complement wrapping via `wrap64`.
-/

/-- Model of Rust `str::trim`: remove leading and trailing whitespace. -/
def strTrim (s : String) : String :=
  String.mk (((s.data.dropWhile Char.isWhitespace).reverse.dropWhile Char.isWhitespace).reverse)

/-- Helper for `splitWS`: `acc` holds the current (reversed) token. -/
def splitWSAux : List Char → List Char → List String
  | [], acc => if acc.isEmpty then [] else [String.mk acc.reverse]
  | c :: cs, acc =>
    if c.isWhitespace then
      if acc.isEmpty then splitWSAux cs []
      else String.mk acc.reverse :: splitWSAux cs []
    else splitWSAux cs (c :: acc)

/-- Model of Rust `str::split_whitespace`: the maximal whitespace-free
nonempty runs, in order. -/
def splitWS (s : String) : List String := splitWSAux s.data []

/-- Numeric value of one ASCII digit character. -/
def digitVal (c : Char) : Nat := c.toNat - 48

/-- Left-to-right accumulation over an all-digit run; `none` on the first
non-digit character. -/
def parseDigitsAux : Nat → List Char → Option Nat
  | acc, [] => some acc
  | acc, c :: cs => if c.isDigit then parseDigitsAux (acc * 10 + digitVal c) cs else none

/-- A nonempty run of ASCII digits, read as a base-10 natural number. -/
def parseDigits : List Char → Option Nat
  | [] => none
  | c :: cs => parseDigitsAux 0 (c :: cs)

def i64Min : Int := -(2 ^ 63)

def i64Max : Int := 2 ^ 63 - 1

/-- Model of Rust `str::parse::<i64>()`: optional leading `-` or `+`, then one
or more ASCII digits making up the whole string, rejected when the value
falls outside `[i64Min, i64Max]`. -/
def parseI64 (s : String) : Option Int :=
  match s.data with
  | [] => none
  | c :: cs =>
    if c = '-' then
      match parseDigits cs with
      | none => none
      | some n => if (n : Int) ≤ 2 ^ 63 then some (-(n : Int)) else none
    else if c = '+' then
      match parseDigits cs with
      | none => none
      | some n => if (n : Int) ≤ i64Max then some (n : Int) else none
    else
      match parseDigits (c :: cs) with
      | none => none
      | some n => if (n : Int) ≤ i64Max then some (n : Int) else none

/-- Two's-complement wrap into the `i64` range, the release-mode semantics of
Rust `i64` addition and subtraction. -/
def wrap64 (x : Int) : Int := (x + 2 ^ 63) % 2 ^ 64 - 2 ^ 63

/-- Model of Rust `str::starts_with` for a one-character pattern (the sigils
`&` and `$` are single ASCII characters). -/
def startsWithChar (s : String) (c : Char) : Bool :=
  match s.data with
  | [] => false
  | d :: _ => d = c

/-- Model of the Rust slice `s[1..]` when the first character is a one-byte
sigil: the text with its first character removed. -/
def dropFirst (s : String) : String := String.mk (s.data.drop 1)

/-- `enum Instruction` from the source.  Operands keep the raw text after the
sigil, exactly as the Rust variants store a `String`. -/
inductive Instruction where
  | succ (target : String) (indirect : Bool)
  | beqzPred (test : String) (testIndirect : Bool) (jump : String) (jumpIndirect : Bool)
  | exit
deriving DecidableEq

/-- The operand-splitting pattern that `Instruction::parse` repeats for each
operand token: `&rest` is indirect, `$rest` is direct, anything else is
invalid (the `else`/early-`return None` sites in the source). -/
def operandSplit (t : String) : Option (String × Bool) :=
  if startsWithChar t '&' then some (dropFirst t, true)
  else if startsWithChar t '$' then some (dropFirst t, false)
  else none

/-- Model of `Instruction::parse`.  The `beqz-pred` arm computes the two
operand splits and fails when either lacks a sigil, matching the two early
`return None` sites in the source. -/
def Instruction.parse (s : String) : Option Instruction :=
  let s := strTrim s
  if s = "exit" then some .exit
  else
    let parts := splitWS s
    if 2 ≤ parts.length ∧ parts.getD 0 "" = "succ" then
      match operandSplit (parts.getD 1 "") with
      | some (t, ind) => some (.succ t ind)
      | none => none
    else if 3 ≤ parts.length ∧ parts.getD 0 "" = "beqz-pred" then
      match operandSplit (parts.getD 1 ""), operandSplit (parts.getD 2 "") with
      | some (t, ti), some (j, ji) => some (.beqzPred t ti j ji)
      | _, _ => none
    else none

/-- `struct VM { pc: i64, memory: Vec<String> }`. -/
structure VM where
  pc : Int
  memory : List String
deriving DecidableEq

/-- The five `panic!` sites of the engine, with the values their messages
report (§7 of the spec names them `OutOfBounds`, `InvalidInstruction`,
`ExecutingData`, `MalformedAddress`, `MalformedIndirectTarget`). -/
inductive VMError where
  | outOfBounds (addr : Int) (memSize : Nat)
  | invalidInstruction (pc : Int) (text : String)
  | executingData (pc : Int) (text : String)
  | malformedAddress (text : String)
  | malformedIndirectTarget (addr : Int) (text : String)
deriving DecidableEq

/-- Model of `VM::check_bounds`. -/
def VM.checkBounds (vm : VM) (addr : Int) : Except VMError Unit :=
  if addr < 0 ∨ (vm.memory.length : Int) ≤ addr then
    .error (.outOfBounds addr vm.memory.length)
  else .ok ()

/-- Model of `VM::get_address`.  `addr` is nonnegative whenever the indirect
read happens (checkBounds passed), so `Int.toNat` indexing is faithful. -/
def VM.getAddress (vm : VM) (addrStr : String) (indirect : Bool) : Except VMError Int :=
  match parseI64 addrStr with
  | none => .error (.malformedAddress addrStr)
  | some addr =>
    if indirect then
      match vm.checkBounds addr with
      | .error e => .error e
      | .ok _ =>
        let valueStr := vm.memory.getD addr.toNat ""
        match parseI64 valueStr with
        | none => .error (.malformedIndirectTarget addr valueStr)
        | some v => .ok v
    else .ok addr

/-- Model of `VM::execute_instruction`.  The `Bool` is the continue/halt
signal (`false` = halt).  An error carries the machine state as it stands at
the corresponding `panic!` site; every mutation in the source happens after
the last fallible operation of its arm, which the nesting below reproduces. -/
def VM.executeInstruction (vm : VM) : Except (VMError × VM) (Bool × VM) :=
  match vm.checkBounds vm.pc with
  | .error e => .error (e, vm)
  | .ok _ =>
    let instructionStr := vm.memory.getD vm.pc.toNat ""
    match Instruction.parse instructionStr with
    | none =>
      if (parseI64 instructionStr).isSome then
        .error (.executingData vm.pc instructionStr, vm)
      else
        .error (.invalidInstruction vm.pc instructionStr, vm)
    | some .exit => .ok (false, vm)
    | some (.succ target indirect) =>
      match vm.getAddress target indirect with
      | .error e => .error (e, vm)
      | .ok targetAddr =>
        match vm.checkBounds targetAddr with
        | .error e => .error (e, vm)
        | .ok _ =>
          let currentVal := (parseI64 (vm.memory.getD targetAddr.toNat "")).getD 0
          .ok (true, { pc := vm.pc + 1,
                       memory := vm.memory.set targetAddr.toNat
                         (toString (wrap64 (currentVal + 1))) })
    | some (.beqzPred test testIndirect jump jumpIndirect) =>
      match vm.getAddress test testIndirect with
      | .error e => .error (e, vm)
      | .ok testAddr =>
        match vm.checkBounds testAddr with
        | .error e => .error (e, vm)
        | .ok _ =>
          let testVal := (parseI64 (vm.memory.getD testAddr.toNat "")).getD 0
          if testVal = 0 then
            match vm.getAddress jump jumpIndirect with
            | .error e => .error (e, vm)
            | .ok jumpAddr =>
              match vm.checkBounds jumpAddr with
              | .error e => .error (e, vm)
              | .ok _ => .ok (true, { vm with pc := jumpAddr })
          else
            .ok (true, { pc := vm.pc + 1,
                         memory := vm.memory.set testAddr.toNat
                           (toString (wrap64 (testVal - 1))) })

example : Instruction.parse "exit" = some .exit := by decide
example : Instruction.parse "succ $x" = some (.succ "x" false) := by decide
example : Instruction.parse "succ $1 $2" = some (.succ "1" false) := by decide
example : Instruction.parse "succ 1" = none := by decide
example : Instruction.parse "beqz-pred &3 $-2" = some (.beqzPred "3" true "-2" false) := by decide
example : parseI64 "-12" = some (-12) := by decide
example : parseI64 "+7" = some 7 := by decide
example : parseI64 "x" = none := by decide
example : parseI64 "" = none := by decide
example : VM.executeInstruction ⟨0, ["exit"]⟩ = .ok (false, ⟨0, ["exit"]⟩) := rfl
example : VM.executeInstruction ⟨0, ["succ $1", "x"]⟩ = .ok (true, ⟨1, ["succ $1", "1"]⟩) := rfl
example : VM.executeInstruction ⟨0, ["beqz-pred $1 $2", "5", "99"]⟩ =
    .ok (true, ⟨1, ["beqz-pred $1 $2", "4", "99"]⟩) := rfl
example : VM.executeInstruction ⟨0, ["beqz-pred $0 $2", "5", "99"]⟩ =
    .ok (true, ⟨2, ["beqz-pred $0 $2", "5", "99"]⟩) := rfl
example : VM.executeInstruction ⟨0, ["succ &1", "1"]⟩ = .ok (true, ⟨1, ["succ &1", "2"]⟩) := rfl
example : VM.executeInstruction ⟨0, ["succ $9"]⟩ =
    .error (.outOfBounds 9 1, ⟨0, ["succ $9"]⟩) := rfl
example : VM.executeInstruction ⟨0, ["42"]⟩ =
    .error (.executingData 0 "42", ⟨0, ["42"]⟩) := rfl

/-! ## Basic lemmas about the engine -/

theorem VM.checkBounds_eq_ok (vm : VM) (a : Int) :
    vm.checkBounds a = .ok () ↔ 0 ≤ a ∧ a < (vm.memory.length : Int) := by
  constructor
  · intro h
    unfold VM.checkBounds at h
    split at h
    · cases h
    · rename_i hcond
      omega
  · intro hc
    unfold VM.checkBounds
    rw [if_neg]
    omega

/-- **C7.** A decoded `Exit` halts (signal `false`) and leaves the program
counter and every memory cell exactly as they were. -/
theorem exit_halts_and_preserves_state (vm : VM)
    (hpc : 0 ≤ vm.pc ∧ vm.pc < (vm.memory.length : Int))
    (hdec : Instruction.parse (vm.memory.getD vm.pc.toNat "") = some .exit) :
    vm.executeInstruction = .ok (false, vm) := by
  have hb : vm.checkBounds vm.pc = .ok () := (VM.checkBounds_eq_ok vm vm.pc).mpr hpc
  simp only [VM.executeInstruction, hb, hdec]

theorem exit_halts_witness :
    VM.executeInstruction ⟨0, ["exit"]⟩ = .ok (false, ⟨0, ["exit"]⟩) :=
  exit_halts_and_preserves_state ⟨0, ["exit"]⟩ (by decide) (by decide)

/-- **C8.** Any step that completes (continue or halt) preserves the number of
memory cells: the engine only rewrites cells in place. -/
theorem step_preserves_memory_length (vm : VM) (b : Bool) (vm2 : VM)
    (h : vm.executeInstruction = .ok (b, vm2)) :
    vm2.memory.length = vm.memory.length := by
  simp only [VM.executeInstruction] at h
  repeat' split at h
  all_goals
    simp only [Except.ok.injEq, Except.error.injEq, Prod.mk.injEq, reduceCtorEq] at h
  all_goals
    obtain ⟨h1, h2⟩ := h
  all_goals
    rw [← h2]
  all_goals
    simp [List.length_set]

theorem step_preserves_memory_length_witness :
    (VM.mk 1 ["succ $1", "1"]).memory.length = (VM.mk 0 ["succ $1", "x"]).memory.length :=
  step_preserves_memory_length ⟨0, ["succ $1", "x"]⟩ true ⟨1, ["succ $1", "1"]⟩ rfl

/-- **C5.** A step is atomic with respect to fatal errors: whenever one step
ends in a fatal error, the machine state carried at the moment of the error is
exactly the starting state (no cell written, `pc` unchanged). -/
theorem fatal_error_is_atomic (vm : VM) (e : VMError) (vm2 : VM)
    (h : vm.executeInstruction = .error (e, vm2)) : vm2 = vm := by
  simp only [VM.executeInstruction] at h
  repeat' split at h
  all_goals
    simp only [Except.ok.injEq, Except.error.injEq, Prod.mk.injEq, reduceCtorEq] at h
  all_goals
    exact h.2.symm

theorem fatal_error_is_atomic_witness : (VM.mk 0 ["succ $9"]) = (VM.mk 0 ["succ $9"]) :=
  fatal_error_is_atomic ⟨0, ["succ $9"]⟩ (.outOfBounds 9 1) ⟨0, ["succ $9"]⟩ rfl

/-- **C2.** A decoded `Succ(op)` whose operand resolves to an in-bounds
address rewrites that cell to the text of its parsed value plus one (an
unparsable cell counting as 0) and advances `pc` by exactly 1. -/
theorem succ_step (vm : VM) (target : String) (ind : Bool) (addr : Int)
    (hpc : 0 ≤ vm.pc ∧ vm.pc < (vm.memory.length : Int))
    (hdec : Instruction.parse (vm.memory.getD vm.pc.toNat "") = some (.succ target ind))
    (hres : vm.getAddress target ind = .ok addr)
    (haddr : 0 ≤ addr ∧ addr < (vm.memory.length : Int)) :
    vm.executeInstruction = .ok (true, ⟨vm.pc + 1, vm.memory.set addr.toNat
      (toString (wrap64 ((parseI64 (vm.memory.getD addr.toNat "")).getD 0 + 1)))⟩) := by
  have hb : vm.checkBounds vm.pc = .ok () := (VM.checkBounds_eq_ok vm vm.pc).mpr hpc
  have hba : vm.checkBounds addr = .ok () := (VM.checkBounds_eq_ok vm addr).mpr haddr
  simp only [VM.executeInstruction, hb, hdec, hres, hba]

theorem succ_step_witness :
    VM.executeInstruction ⟨0, ["succ $1", "x"]⟩ = .ok (true, ⟨1, ["succ $1", "1"]⟩) :=
  succ_step ⟨0, ["succ $1", "x"]⟩ "1" false 1 (by decide) (by decide) rfl (by decide)

/-- **C1.** A decoded `BeqzPred(test, jump)` whose test operand resolves to an
in-bounds address `taddr`: when the cell at `taddr` parses to 0 (default 0 on
an unparsable cell), `pc` is set to the resolved, bounds-checked jump address
and memory is untouched; otherwise the cell at `taddr` is rewritten to the
text of its value minus one and `pc` advances by exactly 1. -/
theorem beqzPred_step (vm : VM) (test : String) (ti : Bool) (jump : String) (ji : Bool)
    (taddr : Int)
    (hpc : 0 ≤ vm.pc ∧ vm.pc < (vm.memory.length : Int))
    (hdec : Instruction.parse (vm.memory.getD vm.pc.toNat "") =
      some (.beqzPred test ti jump ji))
    (hres : vm.getAddress test ti = .ok taddr)
    (htaddr : 0 ≤ taddr ∧ taddr < (vm.memory.length : Int)) :
    ((parseI64 (vm.memory.getD taddr.toNat "")).getD 0 = 0 →
      ∀ jaddr : Int, vm.getAddress jump ji = .ok jaddr →
        0 ≤ jaddr → jaddr < (vm.memory.length : Int) →
        vm.executeInstruction = .ok (true, ⟨jaddr, vm.memory⟩)) ∧
    ((parseI64 (vm.memory.getD taddr.toNat "")).getD 0 ≠ 0 →
      vm.executeInstruction = .ok (true, ⟨vm.pc + 1, vm.memory.set taddr.toNat
        (toString (wrap64 ((parseI64 (vm.memory.getD taddr.toNat "")).getD 0 - 1)))⟩)) := by
  have hb : vm.checkBounds vm.pc = .ok () := (VM.checkBounds_eq_ok vm vm.pc).mpr hpc
  have hbt : vm.checkBounds taddr = .ok () := (VM.checkBounds_eq_ok vm taddr).mpr htaddr
  constructor
  · intro h0 jaddr hj hj1 hj2
    have hbj : vm.checkBounds jaddr = .ok () := (VM.checkBounds_eq_ok vm jaddr).mpr ⟨hj1, hj2⟩
    simp only [VM.executeInstruction, hb, hdec, hres, hbt, h0, hj, hbj, if_pos]
  · intro hne
    simp only [VM.executeInstruction, hb, hdec, hres, hbt, if_neg hne]

theorem beqzPred_step_witness :
    VM.executeInstruction ⟨0, ["beqz-pred $1 $2", "0", "99"]⟩ =
      .ok (true, ⟨2, ["beqz-pred $1 $2", "0", "99"]⟩) :=
  (beqzPred_step ⟨0, ["beqz-pred $1 $2", "0", "99"]⟩ "1" false "2" false 1
    (by decide) (by decide) rfl (by decide)).1 (by decide) 2 rfl (by decide) (by decide)

/-- **C9.** On the decrement path the jump operand plays no role: whatever
text and mode the jump operand has (malformed literal, non-integer pointer
cell, out-of-range target), a nonzero test value makes the step complete
normally with the test cell decremented and `pc` advanced by 1. -/
theorem beqzPred_nonzero_ignores_jump (vm : VM) (test : String) (ti : Bool)
    (jump : String) (ji : Bool) (taddr : Int)
    (hpc : 0 ≤ vm.pc ∧ vm.pc < (vm.memory.length : Int))
    (hdec : Instruction.parse (vm.memory.getD vm.pc.toNat "") =
      some (.beqzPred test ti jump ji))
    (hres : vm.getAddress test ti = .ok taddr)
    (htaddr : 0 ≤ taddr ∧ taddr < (vm.memory.length : Int))
    (hne : (parseI64 (vm.memory.getD taddr.toNat "")).getD 0 ≠ 0) :
    vm.executeInstruction = .ok (true, ⟨vm.pc + 1, vm.memory.set taddr.toNat
      (toString (wrap64 ((parseI64 (vm.memory.getD taddr.toNat "")).getD 0 - 1)))⟩) := by
  have hb : vm.checkBounds vm.pc = .ok () := (VM.checkBounds_eq_ok vm vm.pc).mpr hpc
  have hbt : vm.checkBounds taddr = .ok () := (VM.checkBounds_eq_ok vm taddr).mpr htaddr
  simp only [VM.executeInstruction, hb, hdec, hres, hbt, if_neg hne]

theorem beqzPred_nonzero_ignores_jump_witness :
    VM.executeInstruction ⟨0, ["beqz-pred $1 $x", "5"]⟩ =
      .ok (true, ⟨1, ["beqz-pred $1 $x", "4"]⟩) ∧ parseI64 "x" = none :=
  ⟨beqzPred_nonzero_ignores_jump ⟨0, ["beqz-pred $1 $x", "5"]⟩ "1" false "x" false 1
    (by decide) (by decide) rfl (by decide) (by decide), by decide⟩

/-! ## Integer-looking cell text never decodes as an instruction -/

theorem parseDigitsAux_digits (cs : List Char) :
    ∀ acc m, parseDigitsAux acc cs = some m → ∀ c ∈ cs, c.isDigit = true := by
  induction cs with
  | nil => intro acc m _ c hc; cases hc
  | cons d ds ih =>
    intro acc m h c hc
    unfold parseDigitsAux at h
    split at h
    · rename_i hd
      rcases List.mem_cons.mp hc with hc | hc
      · subst hc; exact hd
      · exact ih _ _ h c hc
    · cases h

theorem parseI64_chars (s : String) (n : Int) (h : parseI64 s = some n) :
    s.data ≠ [] ∧ ∀ c ∈ s.data, c = '-' ∨ c = '+' ∨ c.isDigit = true := by
  obtain ⟨data⟩ := s
  cases data with
  | nil => cases h
  | cons c cs =>
    simp only [parseI64] at h
    refine ⟨by simp, ?_⟩
    have hcs : ∀ m, parseDigits cs = some m → ∀ x ∈ cs, x.isDigit = true := by
      intro m hm x hx
      cases cs with
      | nil => cases hm
      | cons e es => exact parseDigitsAux_digits _ _ _ hm x hx
    intro x hx
    by_cases h1 : c = '-'
    · rw [if_pos h1] at h
      rcases List.mem_cons.mp hx with hx | hx
      · exact Or.inl (hx.trans h1)
      · cases hpd : parseDigits cs with
        | none => rw [hpd] at h; cases h
        | some m => exact Or.inr (Or.inr (hcs m hpd x hx))
    · rw [if_neg h1] at h
      by_cases h2 : c = '+'
      · rw [if_pos h2] at h
        rcases List.mem_cons.mp hx with hx | hx
        · exact Or.inr (Or.inl (hx.trans h2))
        · cases hpd : parseDigits cs with
          | none => rw [hpd] at h; cases h
          | some m => exact Or.inr (Or.inr (hcs m hpd x hx))
      · rw [if_neg h2] at h
        cases hpd : parseDigits (c :: cs) with
        | none => rw [hpd] at h; cases h
        | some m =>
          refine Or.inr (Or.inr ?_)
          unfold parseDigits at hpd
          exact parseDigitsAux_digits _ _ _ hpd x hx

theorem not_ws_of_sign_or_digit (c : Char) (h : c = '-' ∨ c = '+' ∨ c.isDigit = true) :
    c.isWhitespace = false := by
  rcases h with h | h | h
  · subst h; decide
  · subst h; decide
  · by_contra hw
    have hw2 : c.isWhitespace = true := by
      cases hcw : c.isWhitespace
      · exact absurd hcw hw
      · rfl
    have hc : c = ' ' ∨ c = '\t' ∨ c = '\r' ∨ c = '\n' := by
      have : (c = ' ' || c = '\t' || c = '\r' || c = '\n') = true := hw2
      simpa [Bool.or_eq_true, decide_eq_true_eq, or_assoc] using this
    rcases hc with h1 | h1 | h1 | h1 <;> subst h1 <;> exact absurd h (by decide)

theorem dropWhile_eq_self_of_not (p : Char → Bool) (cs : List Char)
    (h : ∀ c ∈ cs, p c = false) : cs.dropWhile p = cs := by
  cases cs with
  | nil => rfl
  | cons c cs =>
    rw [List.dropWhile_cons]
    simp [h c (by simp)]

theorem strTrim_eq_self (s : String) (h : ∀ c ∈ s.data, c.isWhitespace = false) :
    strTrim s = s := by
  unfold strTrim
  rw [dropWhile_eq_self_of_not _ _ h,
    dropWhile_eq_self_of_not _ _ (fun c hc => h c (List.mem_reverse.mp hc)),
    List.reverse_reverse]

theorem splitWSAux_no_ws (cs : List Char) :
    ∀ acc, (∀ c ∈ cs, c.isWhitespace = false) →
      splitWSAux cs acc =
        if (acc.reverse ++ cs).isEmpty then [] else [String.mk (acc.reverse ++ cs)] := by
  induction cs with
  | nil =>
    intro acc _
    simp only [splitWSAux, List.append_nil]
    simp [List.isEmpty_iff, List.reverse_eq_nil_iff]
  | cons c cs ih =>
    intro acc h
    unfold splitWSAux
    rw [h c (by simp)]
    simp only [Bool.false_eq_true, if_false]
    rw [ih (c :: acc) (fun x hx => h x (by simp [hx]))]
    simp [List.append_assoc]

theorem splitWS_no_ws (s : String) (hne : s.data ≠ [])
    (h : ∀ c ∈ s.data, c.isWhitespace = false) : splitWS s = [s] := by
  unfold splitWS
  rw [splitWSAux_no_ws _ _ h]
  simp only [List.reverse_nil, List.nil_append]
  rw [if_neg (by simp [hne])]

theorem parse_none_of_parseI64 (s : String) (n : Int) (h : parseI64 s = some n) :
    Instruction.parse s = none := by
  obtain ⟨hne, hchars⟩ := parseI64_chars s n h
  have hnws : ∀ c ∈ s.data, c.isWhitespace = false :=
    fun c hc => not_ws_of_sign_or_digit c (hchars c hc)
  have htrim : strTrim s = s := strTrim_eq_self s hnws
  have hsplit : splitWS s = [s] := splitWS_no_ws s hne hnws
  have hexit : s ≠ "exit" := by
    rintro rfl
    have hx : parseI64 "exit" = none := by decide
    rw [hx] at h
    cases h
  unfold Instruction.parse
  rw [htrim, if_neg hexit, hsplit]
  simp

/-- **C6.** An in-bounds `pc` whose cell fails to decode raises exactly one of
two fatal errors, classified by the cell text: a cell parsing as a bare
(optionally signed) integer raises the executing-data error and never executes
as an instruction; any other undecodable cell raises invalid-instruction. -/
theorem decode_failure_classification (vm : VM)
    (hpc : 0 ≤ vm.pc ∧ vm.pc < (vm.memory.length : Int)) :
    (∀ n : Int, parseI64 (vm.memory.getD vm.pc.toNat "") = some n →
      vm.executeInstruction =
        .error (.executingData vm.pc (vm.memory.getD vm.pc.toNat ""), vm)) ∧
    (Instruction.parse (vm.memory.getD vm.pc.toNat "") = none →
      parseI64 (vm.memory.getD vm.pc.toNat "") = none →
      vm.executeInstruction =
        .error (.invalidInstruction vm.pc (vm.memory.getD vm.pc.toNat ""), vm)) := by
  have hb : vm.checkBounds vm.pc = .ok () := (VM.checkBounds_eq_ok vm vm.pc).mpr hpc
  constructor
  · intro n hn
    have hdec := parse_none_of_parseI64 _ n hn
    simp only [VM.executeInstruction, hb, hdec, hn, Option.isSome_some, if_pos]
  · intro hdec hn
    simp only [VM.executeInstruction, hb, hdec, hn, Option.isSome_none,
      Bool.false_eq_true, if_false]

theorem decode_failure_classification_witness :
    VM.executeInstruction ⟨0, ["-7"]⟩ = .error (.executingData 0 "-7", ⟨0, ["-7"]⟩) ∧
    VM.executeInstruction ⟨0, ["bogus"]⟩ =
      .error (.invalidInstruction 0 "bogus", ⟨0, ["bogus"]⟩) :=
  ⟨(decode_failure_classification ⟨0, ["-7"]⟩ (by decide)).1 (-7) (by decide),
   (decode_failure_classification ⟨0, ["bogus"]⟩ (by decide)).2 (by decide) (by decide)⟩

/-! ## The engine's decimal rendering re-parses as an integer -/

theorem digitChar_spec (m : Nat) (h : m < 10) :
    (Nat.digitChar m).isDigit = true ∧ digitVal (Nat.digitChar m) = m := by
  interval_cases m <;> exact ⟨by decide, by decide⟩

theorem parseDigitsAux_toDigitsCore (fuel : Nat) :
    ∀ n acc ds, n < 10 ^ fuel →
      ∃ k, parseDigitsAux acc (Nat.toDigitsCore 10 fuel n ds) =
        parseDigitsAux (acc * 10 ^ k + n) ds := by
  induction fuel with
  | zero =>
    intro n acc ds hn
    rw [pow_zero] at hn
    have hn0 : n = 0 := by omega
    subst hn0
    exact ⟨0, by simp [Nat.toDigitsCore]⟩
  | succ fuel ih =>
    intro n acc ds hn
    have hm : n % 10 < 10 := Nat.mod_lt _ (by norm_num)
    obtain ⟨hd, hv⟩ := digitChar_spec (n % 10) hm
    by_cases h0 : n / 10 = 0
    · refine ⟨1, ?_⟩
      simp only [Nat.toDigitsCore]
      rw [if_pos h0]
      simp only [parseDigitsAux, hd, if_true, hv]
      have hmn : n % 10 = n := by omega
      rw [hmn, pow_one]
    · have hn10 : n / 10 < 10 ^ fuel := by rw [pow_succ] at hn; omega
      obtain ⟨k, hk⟩ := ih (n / 10) acc (Nat.digitChar (n % 10) :: ds) hn10
      refine ⟨k + 1, ?_⟩
      simp only [Nat.toDigitsCore]
      rw [if_neg h0, hk]
      simp only [parseDigitsAux, hd, if_true, hv]
      congr 1
      rw [pow_succ, ← mul_assoc]
      have h1 := Nat.div_add_mod n 10
      generalize acc * 10 ^ k = A
      omega

theorem toDigitsCore_ne_nil (fuel : Nat) :
    ∀ n ds, Nat.toDigitsCore 10 (fuel + 1) n ds ≠ [] := by
  induction fuel with
  | zero =>
    intro n ds
    simp only [Nat.toDigitsCore]
    split <;> simp
  | succ fuel ih =>
    intro n ds
    simp only [Nat.toDigitsCore]
    split
    · simp
    · exact ih _ _

theorem toDigitsCore_head_digit (fuel : Nat) :
    ∀ n ds c cs, (∀ d ∈ ds, d.isDigit = true) →
      Nat.toDigitsCore 10 fuel n ds = c :: cs → c.isDigit = true := by
  induction fuel with
  | zero =>
    intro n ds c cs hds h
    simp only [Nat.toDigitsCore] at h
    subst h
    exact hds c (by simp)
  | succ fuel ih =>
    intro n ds c cs hds h
    simp only [Nat.toDigitsCore] at h
    split at h
    · injection h with h1 h2
      rw [← h1]
      exact (digitChar_spec _ (Nat.mod_lt _ (by norm_num))).1
    · refine ih _ _ _ _ ?_ h
      intro d hd
      rcases List.mem_cons.mp hd with hd | hd
      · subst hd
        exact (digitChar_spec _ (Nat.mod_lt _ (by norm_num))).1
      · exact hds d hd

theorem parseDigits_toDigits (n : Nat) :
    parseDigits (Nat.toDigits 10 n) = some n := by
  unfold Nat.toDigits
  have hfuel : n < 10 ^ (n + 1) :=
    lt_of_lt_of_le (Nat.lt_pow_self (by norm_num) n)
      (Nat.pow_le_pow_right (by norm_num) (by omega))
  obtain ⟨k, hk⟩ := parseDigitsAux_toDigitsCore (n + 1) n 0 [] hfuel
  cases hcons : Nat.toDigitsCore 10 (n + 1) n [] with
  | nil => exact absurd hcons (toDigitsCore_ne_nil n n [])
  | cons c cs =>
    show parseDigitsAux 0 (c :: cs) = some n
    rw [← hcons, hk]
    simp [parseDigitsAux]

theorem digit_ne_sign (c : Char) (h : c.isDigit = true) : c ≠ '-' ∧ c ≠ '+' := by
  constructor <;> rintro rfl <;> exact absurd h (by decide)

theorem parseI64_toString (v : Int) (h1 : i64Min ≤ v) (h2 : v ≤ i64Max) :
    parseI64 (toString v) = some v := by
  cases v with
  | ofNat m =>
    have hdata : (toString (Int.ofNat m)).data = Nat.toDigits 10 m := rfl
    cases hcons : Nat.toDigits 10 m with
    | nil => exact absurd hcons (toDigitsCore_ne_nil m m [])
    | cons c cs =>
      have hc : c.isDigit = true :=
        toDigitsCore_head_digit (m + 1) m [] c cs (by intro d hd; cases hd) hcons
      obtain ⟨hc1, hc2⟩ := digit_ne_sign c hc
      simp only [parseI64, hdata, hcons, if_neg hc1, if_neg hc2]
      rw [← hcons]
      simp only [parseDigits_toDigits m]
      rw [if_pos (by exact_mod_cast h2)]
      rfl
  | negSucc m =>
    have hdata : (toString (Int.negSucc m)).data = '-' :: Nat.toDigits 10 (m + 1) := rfl
    simp only [parseI64, hdata, if_pos]
    simp only [parseDigits_toDigits (m + 1)]
    rw [Int.negSucc_eq] at h1 ⊢
    unfold i64Min at h1
    rw [if_pos (by push_cast; omega)]
    congr 1

theorem wrap64_mem (x : Int) : i64Min ≤ wrap64 x ∧ wrap64 x ≤ i64Max := by
  unfold wrap64 i64Min i64Max
  have h1 : 0 ≤ (x + 2 ^ 63) % 2 ^ 64 := Int.emod_nonneg _ (by norm_num)
  have h2 : (x + 2 ^ 63) % 2 ^ 64 < 2 ^ 64 := Int.emod_lt_of_pos _ (by norm_num)
  have e63 : (2 : Int) ^ 63 = 9223372036854775808 := by norm_num
  have e64 : (2 : Int) ^ 64 = 18446744073709551616 := by norm_num
  rw [e63, e64] at h1 h2 ⊢
  omega

theorem getD_set_self (l : List String) (i : Nat) (a d : String) (h : i < l.length) :
    (l.set i a).getD i d = a := by
  simp [List.getD, List.getElem?_set_self, h]

theorem getD_set_ne (l : List String) (i j : Nat) (a d : String) (h : i ≠ j) :
    (l.set i a).getD j d = l.getD j d := by
  simp [List.getD, List.getElem?_set_ne h]

theorem step_memory_shape (vm : VM) (b : Bool) (vm2 : VM)
    (h : vm.executeInstruction = .ok (b, vm2)) :
    vm2.memory = vm.memory ∨
      ∃ t : Nat, ∃ v : Int, vm2.memory = vm.memory.set t (toString (wrap64 v)) := by
  simp only [VM.executeInstruction] at h
  repeat' split at h
  all_goals
    simp only [Except.ok.injEq, Except.error.injEq, Prod.mk.injEq, reduceCtorEq] at h
  all_goals first
    | exact h.elim
    | (obtain ⟨hb2, hvm2⟩ := h
       subst hvm2
       first
         | exact Or.inl rfl
         | exact Or.inr ⟨_, _, rfl⟩)

/-- **C10.** Any cell the engine rewrites (increment or decrement) ends up
holding the decimal text of a signed 64-bit integer, which re-parses as an
integer, so the default-to-zero rule cannot apply to a cell the engine itself
wrote. -/
theorem written_cells_reparse (vm : VM) (b : Bool) (vm2 : VM)
    (h : vm.executeInstruction = .ok (b, vm2)) (i : Nat)
    (hne : vm2.memory.getD i "" ≠ vm.memory.getD i "") :
    ∃ w : Int, i64Min ≤ w ∧ w ≤ i64Max ∧ vm2.memory.getD i "" = toString w ∧
      parseI64 (vm2.memory.getD i "") = some w := by
  rcases step_memory_shape vm b vm2 h with hmem | ⟨t, v, hmem⟩
  · rw [hmem] at hne
    exact absurd rfl hne
  · by_cases hit : i = t
    · subst hit
      by_cases hlt : i < vm.memory.length
      · rw [hmem, getD_set_self _ _ _ _ hlt]
        exact ⟨wrap64 v, (wrap64_mem v).1, (wrap64_mem v).2, rfl,
          parseI64_toString _ (wrap64_mem v).1 (wrap64_mem v).2⟩
      · rw [hmem, List.set_eq_of_length_le (by omega)] at hne
        exact absurd rfl hne
    · rw [hmem, getD_set_ne _ _ _ _ _ (fun he => hit he.symm)] at hne
      exact absurd rfl hne

theorem written_cells_reparse_witness :
    ∃ w : Int, i64Min ≤ w ∧ w ≤ i64Max ∧
      (VM.mk 1 ["succ $1", "1"]).memory.getD 1 "" = toString w ∧
      parseI64 ((VM.mk 1 ["succ $1", "1"]).memory.getD 1 "") = some w :=
  written_cells_reparse ⟨0, ["succ $1", "x"]⟩ true ⟨1, ["succ $1", "1"]⟩ rfl 1 (by decide)

/-! ## Indirect addressing (C4) -/

theorem VM.checkBounds_eq_error (vm : VM) (a : Int)
    (h : a < 0 ∨ (vm.memory.length : Int) ≤ a) :
    vm.checkBounds a = .error (.outOfBounds a vm.memory.length) := by
  unfold VM.checkBounds
  rw [if_pos h]

/-- **C4 (counterexample).** When the pointer cell holds its own index, the
instruction that dereferences it does change it: `succ &1` on
`["succ &1", "1"]` resolves the target through cell 1 to cell 1 itself and
increments it, so the pointer cell is not left unchanged. -/
theorem indirect_pointer_cell_counterexample :
    VM.executeInstruction ⟨0, ["succ &1", "1"]⟩ = .ok (true, ⟨1, ["succ &1", "2"]⟩) ∧
    (VM.mk 1 ["succ &1", "2"]).memory.getD 1 "" ≠
      (VM.mk 0 ["succ &1", "1"]).memory.getD 1 "" :=
  ⟨rfl, by decide⟩

/-- **C4 (amended).** Indirect resolution of a literal `a` bounds-checks `a`,
reads `memory[a]`, returns the integer parsed from that cell as the resolved
address (fatal, not default-0, when it does not parse), performs exactly one
dereference (the parsed value is returned as the address with no further
lookup), and the instruction that used the pointer cell leaves it unchanged
unless the resolved target address is the pointer cell itself.  The last
point is covered for every use of an indirect operand: a `succ` target, a
`beqz-pred` test operand (on both branches), and a `beqz-pred` jump operand,
which is only ever resolved on the branch-taken path, where no cell is
written at all. -/
theorem indirect_addressing_spec (vm : VM) (s : String) (a : Int)
    (hp : parseI64 s = some a) :
    ((a < 0 ∨ (vm.memory.length : Int) ≤ a) →
      vm.getAddress s true = .error (.outOfBounds a vm.memory.length)) ∧
    (0 ≤ a → a < (vm.memory.length : Int) →
      parseI64 (vm.memory.getD a.toNat "") = none →
      vm.getAddress s true =
        .error (.malformedIndirectTarget a (vm.memory.getD a.toNat ""))) ∧
    (∀ r : Int, 0 ≤ a → a < (vm.memory.length : Int) →
      parseI64 (vm.memory.getD a.toNat "") = some r →
      vm.getAddress s true = .ok r) ∧
    (∀ r : Int, 0 ≤ a → a < (vm.memory.length : Int) →
      parseI64 (vm.memory.getD a.toNat "") = some r →
      r.toNat ≠ a.toNat →
      ∀ b vm2, Instruction.parse (vm.memory.getD vm.pc.toNat "") = some (.succ s true) →
        vm.executeInstruction = .ok (b, vm2) →
        vm2.memory.getD a.toNat "" = vm.memory.getD a.toNat "") ∧
    (∀ r : Int, 0 ≤ a → a < (vm.memory.length : Int) →
      parseI64 (vm.memory.getD a.toNat "") = some r →
      r.toNat ≠ a.toNat →
      ∀ jump ji b vm2,
        Instruction.parse (vm.memory.getD vm.pc.toNat "") =
          some (.beqzPred s true jump ji) →
        vm.executeInstruction = .ok (b, vm2) →
        vm2.memory.getD a.toNat "" = vm.memory.getD a.toNat "") ∧
    (∀ test ti taddr b vm2,
      Instruction.parse (vm.memory.getD vm.pc.toNat "") =
        some (.beqzPred test ti s true) →
      vm.getAddress test ti = .ok taddr →
      (parseI64 (vm.memory.getD taddr.toNat "")).getD 0 = 0 →
      vm.executeInstruction = .ok (b, vm2) →
      vm2.memory = vm.memory) := by
  have hchain : ∀ r : Int, 0 ≤ a → a < (vm.memory.length : Int) →
      parseI64 (vm.memory.getD a.toNat "") = some r → vm.getAddress s true = .ok r := by
    intro r h1 h2 hsome
    have hb : vm.checkBounds a = .ok () := (VM.checkBounds_eq_ok vm a).mpr ⟨h1, h2⟩
    simp only [VM.getAddress, hp, hb, hsome, if_true]
  refine ⟨?_, ?_, hchain, ?_, ?_, ?_⟩
  · intro h
    have hb := VM.checkBounds_eq_error vm a h
    simp only [VM.getAddress, hp, hb, if_true]
  · intro h1 h2 hnone
    have hb : vm.checkBounds a = .ok () := (VM.checkBounds_eq_ok vm a).mpr ⟨h1, h2⟩
    simp only [VM.getAddress, hp, hb, hnone, if_true]
  · intro r h1 h2 hsome hne b vm2 hdec hstep
    have hga := hchain r h1 h2 hsome
    simp only [VM.executeInstruction] at hstep
    split at hstep
    · cases hstep
    · simp only [hdec, hga] at hstep
      split at hstep
      · cases hstep
      · simp only [Except.ok.injEq, Prod.mk.injEq] at hstep
        rw [← hstep.2]
        exact getD_set_ne _ _ _ _ _ hne
  · intro r h1 h2 hsome hne jump ji b vm2 hdec hstep
    have hga := hchain r h1 h2 hsome
    simp only [VM.executeInstruction] at hstep
    split at hstep
    · cases hstep
    · simp only [hdec, hga] at hstep
      split at hstep
      · cases hstep
      · split at hstep
        · split at hstep
          · cases hstep
          · split at hstep
            · cases hstep
            · simp only [Except.ok.injEq, Prod.mk.injEq] at hstep
              rw [← hstep.2]
        · simp only [Except.ok.injEq, Prod.mk.injEq] at hstep
          rw [← hstep.2]
          exact getD_set_ne _ _ _ _ _ hne
  · intro test ti taddr b vm2 hdec hres h0 hstep
    simp only [VM.executeInstruction] at hstep
    split at hstep
    · cases hstep
    · simp only [hdec, hres] at hstep
      split at hstep
      · cases hstep
      · rw [if_pos h0] at hstep
        split at hstep
        · cases hstep
        · split at hstep
          · cases hstep
          · simp only [Except.ok.injEq, Prod.mk.injEq] at hstep
            rw [← hstep.2]

theorem indirect_addressing_spec_witness :
    VM.getAddress ⟨0, ["succ &1", "2", "7"]⟩ "1" true = .ok 2 ∧
    (VM.mk 1 ["succ &1", "2", "8"]).memory.getD 1 "" =
      (VM.mk 0 ["succ &1", "2", "7"]).memory.getD 1 "" ∧
    (VM.mk 1 ["beqz-pred &1 $0", "2", "4"]).memory.getD 1 "" =
      (VM.mk 0 ["beqz-pred &1 $0", "2", "5"]).memory.getD 1 "" := by
  obtain ⟨c1, c2, c3, c4, c5, c6⟩ :=
    indirect_addressing_spec ⟨0, ["succ &1", "2", "7"]⟩ "1" 1 (by decide)
  obtain ⟨d1, d2, d3, d4, d5, d6⟩ :=
    indirect_addressing_spec ⟨0, ["beqz-pred &1 $0", "2", "5"]⟩ "1" 1 (by decide)
  refine ⟨c3 2 (by decide) (by decide) (by decide),
    c4 2 (by decide) (by decide) (by decide) (by decide) true ⟨1, ["succ &1", "2", "8"]⟩
      (by decide) rfl,
    d5 2 (by decide) (by decide) (by decide) (by decide) "0" false true
      ⟨1, ["beqz-pred &1 $0", "2", "4"]⟩ (by decide) rfl⟩

/-! ## Decoder shape (C3) -/

/-- **C3 (counterexample).** The decoder accepts an operand whose text after
the sigil is not a base-10 integer literal, and accepts more tokens than the
declared arity, both of which the claim says it rejects. -/
theorem decoder_leniency_counterexample :
    Instruction.parse "succ $x" = some (.succ "x" false) ∧ parseI64 "x" = none ∧
    Instruction.parse "succ $1 $2" = some (.succ "1" false) :=
  ⟨by decide, by decide, by decide⟩

/-- **C3 (amended).** The decoder rejects an unknown keyword, too few tokens,
and a used operand token lacking a `&`/`$` sigil; it does not validate the
text after the sigil (a malformed literal faults later, at address
resolution) and ignores extra trailing tokens; `exit` decodes only as the
entire trimmed cell text. -/
theorem decoder_shape (s : String) (ts : List String)
    (hts : ts = splitWS (strTrim s)) :
    (strTrim s = "exit" → Instruction.parse s = some .exit) ∧
    (strTrim s ≠ "exit" →
      (ts.getD 0 "" ≠ "succ" → ts.getD 0 "" ≠ "beqz-pred" → Instruction.parse s = none) ∧
      (ts.length ≤ 1 → Instruction.parse s = none) ∧
      (ts.getD 0 "" = "succ" → 2 ≤ ts.length →
        Instruction.parse s =
          match operandSplit (ts.getD 1 "") with
          | some (t, ind) => some (.succ t ind)
          | none => none) ∧
      (ts.getD 0 "" = "beqz-pred" → ts.length ≤ 2 → Instruction.parse s = none) ∧
      (ts.getD 0 "" = "beqz-pred" → 3 ≤ ts.length →
        Instruction.parse s =
          match operandSplit (ts.getD 1 ""), operandSplit (ts.getD 2 "") with
          | some (t, ti), some (j, ji) => some (.beqzPred t ti j ji)
          | _, _ => none)) := by
  subst hts
  constructor
  · intro hex
    unfold Instruction.parse
    rw [if_pos hex]
  · intro hex
    refine ⟨?_, ?_, ?_, ?_, ?_⟩
    · intro h1 h2
      simp only [Instruction.parse]
      rw [if_neg hex, if_neg (fun hc => h1 hc.2), if_neg (fun hc => h2 hc.2)]
    · intro hlen
      simp only [Instruction.parse]
      rw [if_neg hex, if_neg (fun hc => absurd hc.1 (by omega)),
        if_neg (fun hc => absurd hc.1 (by omega))]
    · intro hkw hlen
      simp only [Instruction.parse]
      rw [if_neg hex, if_pos ⟨hlen, hkw⟩]
    · intro hkw hlen
      simp only [Instruction.parse]
      rw [if_neg hex, if_neg (fun hc => by rw [hkw] at hc; exact absurd hc.2 (by decide)),
        if_neg (fun hc => absurd hc.1 (by omega))]
    · intro hkw hlen
      simp only [Instruction.parse]
      rw [if_neg hex, if_neg (fun hc => by rw [hkw] at hc; exact absurd hc.2 (by decide)),
        if_pos ⟨hlen, hkw⟩]

theorem decoder_shape_witness :
    Instruction.parse "succ &q" = some (.succ "q" true) := by
  have h := ((decoder_shape "succ &q" (splitWS (strTrim "succ &q")) rfl).2
    (by decide)).2.2.1 (by decide) (by decide)
  exact h.trans (by decide)
